import Mathlib

/-!
Verification development for the TENG multi-channel acquisition program.

The definitions below are shallow embeddings of the Python source files:

* `serial_handler.py` — `SerialThread.process_buffer` (little-endian frame
  decoder), `SerialThread.__init__` / `stop` (time-offset bookkeeping);
* `UpperComputer.py` — the older `SerialThread.process_buffer` revision
  (big-endian frame decoder);
* `serial_manager.py` — `SerialManager.connect_serial` / `disconnect_serial`;
* `modules/touch_detector.py` — `TouchDetector.detect_touch`;
* `modules/data_manager.py` — `DataManager.add_data_point` / `get_all_data`.

Bytes are modelled as natural numbers, Python floats (IEEE-754 binary32
values produced by `struct.unpack`, converted exactly to binary64) as the
inductive type `F32` with an exact rational payload for finite values, and
wall-clock instants as rationals passed explicitly where the Python code
calls `time.time()`.
-/

namespace TENG

/-- The 4-byte frame tail `00 00 80 7F` (`self.data_frame_tail`). -/
def sentinel : List ℕ := [0x00, 0x00, 0x80, 0x7f]

/-- Index of the first occurrence of `sentinel` as a contiguous subsequence,
mirroring Python `bytearray.index(self.data_frame_tail)`; `none` models the
`ValueError` branch. -/
def findTail : List ℕ → Option ℕ
  | [] => none
  | x :: xs =>
    if sentinel.isPrefixOf (x :: xs) then some 0
    else (findTail xs).map (· + 1)

/-- Result of `struct.unpack` on 4 bytes: a Python float.  Finite values are
kept exactly as rationals; infinities and NaNs keep their bit payload so that
distinct decodings stay distinguishable. -/
inductive F32 where
  | num : ℚ → F32
  | inf : Bool → F32
  | nan : Bool → ℕ → F32
  deriving DecidableEq, Repr

/-- Little-endian (`'<f'`) 32-bit word from 4 bytes. -/
def wordLE : List ℕ → ℕ
  | [b0, b1, b2, b3] => b0 + 2 ^ 8 * b1 + 2 ^ 16 * b2 + 2 ^ 24 * b3
  | _ => 0

/-- Big-endian (`'>f'`) 32-bit word from 4 bytes. -/
def wordBE : List ℕ → ℕ
  | [b0, b1, b2, b3] => b3 + 2 ^ 8 * b2 + 2 ^ 16 * b1 + 2 ^ 24 * b0
  | _ => 0

/-- Exact value of an IEEE-754 binary32 bit pattern.  A finite value with
sign `s`, biased exponent `e` and mantissa `m` equals
`(-1)^s * M * 2^(E-150)` with `M = m`, `E = 1` for subnormals and
`M = 2^23 + m`, `E = e` otherwise; the power is expressed as an exact
rational division so that the definition evaluates by kernel reduction. -/
def f32OfWord (w : ℕ) : F32 :=
  let s := w / 2 ^ 31 % 2
  let e := w / 2 ^ 23 % 256
  let m := w % 2 ^ 23
  if e = 255 then
    if m = 0 then .inf (s = 1) else .nan (s = 1) m
  else
    let mag : ℚ := mkRat ((if e = 0 then m else 2 ^ 23 + m) * 2 ^ max e 1) (2 ^ 150)
    .num (if s = 1 then -mag else mag)

/-- `struct.unpack('<f', bs)`: raises `struct.error` (here `none`) unless the
slice has exactly 4 bytes. -/
def unpackLE : List ℕ → Option F32 :=
  fun bs => if bs.length = 4 then some (f32OfWord (wordLE bs)) else none

/-- The decode loop of `serial_handler.SerialThread.process_buffer`
(lines 122-127): `for i in range(8): struct.unpack('<f', frame_data[i*4:(i+1)*4])`,
aborting at the first `struct.error`. -/
def decodeFloatsLE (fd : List ℕ) : List ℕ → Option (List F32)
  | [] => some []
  | i :: is =>
    match unpackLE ((fd.drop (i * 4)).take 4) with
    | none => none
    | some v =>
      match decodeFloatsLE fd is with
      | none => none
      | some vs => some (v :: vs)

/-- The 8-float little-endian decode of one 32-byte frame payload. -/
def decodeFrameLEOpt (fd : List ℕ) : Option (List F32) :=
  decodeFloatsLE fd (List.range 8)

/-- Total form of the little-endian frame decode (equal to `decodeFrameLEOpt`
on 32-byte payloads, see `decodeFrameLEOpt_eq_some`). -/
def decodeFrameLE (fd : List ℕ) : List F32 :=
  (List.range 8).map fun i => f32OfWord (wordLE ((fd.drop (i * 4)).take 4))

/-- The decode loop of `UpperComputer.SerialThread.process_buffer`
(lines 73-79): `struct.unpack('>f', ...)` with no surrounding try/except;
under the `tail_index >= 32` guard every slice has exactly 4 bytes, so
`struct.error` cannot occur and the decode is total. -/
def decodeFrameBE (fd : List ℕ) : List F32 :=
  (List.range 8).map fun i => f32OfWord (wordBE ((fd.drop (i * 4)).take 4))

/-- Outcome of one iteration of the `while len(self.buffer) >= 36` loop:
either the loop terminates with a final buffer (`stop`), or the iteration
advanced the buffer, possibly emitting one frame (`cont`). -/
inductive StepRes where
  | stop : List ℕ → StepRes
  | cont : Option (List F32) → List ℕ → StepRes
  deriving DecidableEq, Repr

/-- One iteration of the loop body of
`serial_handler.SerialThread.process_buffer` (lines 95-146):
exit when fewer than 36 bytes remain; on a missing tail (`ValueError`)
truncate to the last 36 bytes if the buffer exceeds 360 bytes and exit;
on a tail at `t < 32` discard through the tail and continue; otherwise
decode the 32 bytes before the tail (`struct.error` discards the span,
the inner `except` branch) and advance past the tail. -/
def stepSH (buf : List ℕ) : StepRes :=
  if buf.length < 36 then .stop buf
  else
    match findTail buf with
    | none => .stop (if 360 < buf.length then buf.drop (buf.length - 36) else buf)
    | some t =>
      if t < 32 then .cont none (buf.drop (t + 4))
      else
        match decodeFrameLEOpt ((buf.drop (t - 32)).take 32) with
        | none => .cont none (buf.drop (t + 4))
        | some vs => .cont (some vs) (buf.drop (t + 4))

/-- The loop of `serial_handler.SerialThread.process_buffer`, made
structurally recursive on a fuel argument; each iteration consumes at least
4 bytes, so `fuel = buffer length` (supplied by `processBufferSH`) always
suffices and the `fuel = 0` clause is never reached from the wrapper.
Returns the emitted 8-float value lists (the `data_received` payloads,
timestamps omitted — they come from `time.time()`, modelled separately)
together with the final buffer.  The outer `except Exception` clause of the
source is dead code: the only failing operation, `struct.unpack`, is
already handled by the inner `except struct.error` branch. -/
def processSHAux : ℕ → List ℕ → List (List F32) × List ℕ
  | 0, buf => ([], buf)
  | fuel + 1, buf =>
    match stepSH buf with
    | .stop b => ([], b)
    | .cont none b => processSHAux fuel b
    | .cont (some vs) b =>
      let r := processSHAux fuel b
      (vs :: r.1, r.2)

/-- One call of `serial_handler.SerialThread.process_buffer` on `buf`. -/
def processBufferSH (buf : List ℕ) : List (List F32) × List ℕ :=
  processSHAux buf.length buf

/-- One iteration of the loop body of
`UpperComputer.SerialThread.process_buffer` (lines 61-91): identical loop
structure, big-endian decode, no inner try/except (under the
`tail_index >= 32` guard every slice has 4 bytes, so `struct.unpack`
cannot fail and the decode is total). -/
def stepUC (buf : List ℕ) : StepRes :=
  if buf.length < 36 then .stop buf
  else
    match findTail buf with
    | none => .stop (if 360 < buf.length then buf.drop (buf.length - 36) else buf)
    | some t =>
      if 32 ≤ t then .cont (some (decodeFrameBE ((buf.drop (t - 32)).take 32))) (buf.drop (t + 4))
      else .cont none (buf.drop (t + 4))

/-- The loop of `UpperComputer.SerialThread.process_buffer`. -/
def processUCAux : ℕ → List ℕ → List (List F32) × List ℕ
  | 0, buf => ([], buf)
  | fuel + 1, buf =>
    match stepUC buf with
    | .stop b => ([], b)
    | .cont none b => processUCAux fuel b
    | .cont (some vs) b =>
      let r := processUCAux fuel b
      (vs :: r.1, r.2)

/-- One call of `UpperComputer.SerialThread.process_buffer` on `buf`. -/
def processBufferUC (buf : List ℕ) : List (List F32) × List ℕ :=
  processUCAux buf.length buf

/-- Feeding a sequence of byte chunks: each chunk is appended to the buffer
and `process_buffer` runs once (the `run` loop, lines 70-80 of
`serial_handler.py`).  Returns all emitted frames in order and the final
buffer. -/
def feedAll : List (List ℕ) → List ℕ → List (List F32) × List ℕ
  | [], buf => ([], buf)
  | c :: cs, buf =>
    let r := processBufferSH (buf ++ c)
    let r2 := feedAll cs r.2
    (r.1 ++ r2.1, r2.2)

/-! ### Occurrence theory for the tail search -/

/-- The sentinel occurs in `l` starting at index `i`. -/
def occursAt (l : List ℕ) (i : ℕ) : Prop := sentinel <+: l.drop i

theorem occursAt_length {l : List ℕ} {i : ℕ} (h : occursAt l i) :
    i + 4 ≤ l.length := by
  have hlen : sentinel.length ≤ (l.drop i).length := h.length_le
  simp [sentinel, List.length_drop] at hlen
  omega

theorem occursAt_cons_succ {x : ℕ} {xs : List ℕ} {i : ℕ} :
    occursAt (x :: xs) (i + 1) ↔ occursAt xs i := Iff.rfl

theorem isPrefixOf_bridge {l1 l2 : List ℕ} : l1.isPrefixOf l2 = true ↔ l1 <+: l2 :=
  List.isPrefixOf_iff_prefix

theorem findTail_cons_pos {x : ℕ} {xs : List ℕ} (h : sentinel <+: (x :: xs)) :
    findTail (x :: xs) = some 0 := by
  unfold findTail
  rw [if_pos (isPrefixOf_bridge.mpr h)]

theorem findTail_cons_neg {x : ℕ} {xs : List ℕ} (h : ¬ sentinel <+: (x :: xs)) :
    findTail (x :: xs) = (findTail xs).map (· + 1) := by
  unfold findTail
  rw [if_neg (fun hc => h (isPrefixOf_bridge.mp hc))]
  cases xs <;> rfl

theorem findTail_eq_none_iff {l : List ℕ} :
    findTail l = none ↔ ∀ i, ¬ occursAt l i := by
  induction l with
  | nil =>
    simp only [findTail, true_iff]
    intro i h
    have := occursAt_length h
    simp at this
  | cons x xs ih =>
    by_cases hp : sentinel <+: (x :: xs)
    · rw [findTail_cons_pos hp]
      constructor
      · intro h; exact absurd h (by simp)
      · intro h; exact absurd hp (h 0)
    · rw [findTail_cons_neg hp]
      rw [Option.map_eq_none', ih]
      constructor
      · intro h i
        match i with
        | 0 => exact hp
        | j + 1 => exact h j
      · intro h i
        exact h (i + 1)

theorem findTail_some_occursAt {l : List ℕ} {t : ℕ} (h : findTail l = some t) :
    occursAt l t := by
  induction l generalizing t with
  | nil => simp [findTail] at h
  | cons x xs ih =>
    by_cases hp : sentinel <+: (x :: xs)
    · rw [findTail_cons_pos hp, Option.some_inj] at h
      subst h
      exact hp
    · rw [findTail_cons_neg hp, Option.map_eq_some'] at h
      obtain ⟨j, hj, rfl⟩ := h
      exact (occursAt_cons_succ).mpr (ih hj)

theorem findTail_min {l : List ℕ} {t j : ℕ} (h : findTail l = some t)
    (hj : occursAt l j) : t ≤ j := by
  induction l generalizing t j with
  | nil => simp [findTail] at h
  | cons x xs ih =>
    by_cases hp : sentinel <+: (x :: xs)
    · rw [findTail_cons_pos hp, Option.some_inj] at h
      subst h
      exact Nat.zero_le _
    · rw [findTail_cons_neg hp, Option.map_eq_some'] at h
      obtain ⟨t', ht', rfl⟩ := h
      match j with
      | 0 => exact absurd hj hp
      | j' + 1 =>
        exact Nat.succ_le_succ (ih ht' ((occursAt_cons_succ).mp hj))

theorem findTail_isSome_of_occursAt {l : List ℕ} {j : ℕ} (hj : occursAt l j) :
    ∃ t, findTail l = some t ∧ t ≤ j := by
  cases ht : findTail l with
  | none => exact absurd hj (findTail_eq_none_iff.mp ht j)
  | some t => exact ⟨t, rfl, findTail_min ht hj⟩

/-- An occurrence inside a prefix is an occurrence in the whole list. -/
theorem occursAt_extend {b m : List ℕ} {i : ℕ} (h : b <+: m)
    (ho : occursAt b i) : occursAt m i := by
  obtain ⟨s, rfl⟩ := h
  have hi : i ≤ b.length := by have := occursAt_length ho; omega
  unfold occursAt at *
  rw [List.drop_append_eq_append_drop, Nat.sub_eq_zero_of_le hi, List.drop_zero]
  exact ho.trans (List.prefix_append _ s)

/-- An occurrence that fits inside a prefix transfers back to the prefix. -/
theorem occursAt_restrict {b m : List ℕ} {i : ℕ} (h : b <+: m)
    (hfit : i + 4 ≤ b.length) (ho : occursAt m i) : occursAt b i := by
  obtain ⟨s, rfl⟩ := h
  unfold occursAt at *
  rw [List.drop_append_eq_append_drop, Nat.sub_eq_zero_of_le (by omega),
    List.drop_zero] at ho
  rw [List.prefix_iff_eq_take] at ho ⊢
  have hlen : sentinel.length ≤ (b.drop i).length := by
    simp [sentinel, List.length_drop]; omega
  have h4 : (b.drop i ++ s).take sentinel.length = (b.drop i).take sentinel.length := by
    rw [List.take_append_eq_append_take, Nat.sub_eq_zero_of_le hlen,
      List.take_zero, List.append_nil]
  exact ho.trans h4

theorem occursAt_drop {l : List ℕ} {d i : ℕ} :
    occursAt (l.drop d) i ↔ occursAt l (d + i) := by
  unfold occursAt
  rw [List.drop_drop, Nat.add_comm]

theorem findTail_none_of_drop {l : List ℕ} {d : ℕ} (h : findTail l = none) :
    findTail (l.drop d) = none := by
  rw [findTail_eq_none_iff] at h ⊢
  intro i hi
  exact h (d + i) (occursAt_drop.mp hi)

theorem findTail_none_of_front {b m : List ℕ} (h : b <+: m)
    (hm : findTail m = none) : findTail b = none := by
  rw [findTail_eq_none_iff] at hm ⊢
  intro i hi
  exact hm i (occursAt_extend h hi)

/-! ### Streams of frames interleaved with garbage -/

/-- The byte stream built from garbage runs `gs` interleaved with 32-byte
frame payloads `ps` (each payload immediately followed by the sentinel):
`g0 ++ p0 ++ tail ++ g1 ++ p1 ++ tail ++ ... ++ gn`. -/
def stream : List (List ℕ) → List (List ℕ) → List ℕ
  | gs, p :: ps =>
    match gs with
    | g :: gs' => g ++ (p ++ sentinel) ++ stream gs' ps
    | [] => []
  | gs, [] =>
    match gs with
    | g :: _ => g
    | [] => []

/-- Well-formedness of a garbage/frame interleaving: every payload has
exactly 32 bytes, and the sentinel occurs nowhere in the assembled stream
except as each frame's own terminating tail.  The per-frame condition
`findTail (g ++ p ++ sentinel.take 3) = none` says exactly that no sentinel
occurrence starts before the frame's own terminator (in particular none
inside the garbage run and none straddling the garbage/payload boundary). -/
def goodStream : List (List ℕ) → List (List ℕ) → Prop
  | gs, p :: ps =>
    match gs with
    | g :: gs' =>
      p.length = 32 ∧ findTail (g ++ p ++ sentinel.take 3) = none ∧ goodStream gs' ps
    | [] => False
  | gs, [] =>
    match gs with
    | [g] => findTail g = none
    | _ => False

theorem goodStream_cons_iff {g : List ℕ} {gs ps' : List (List ℕ)} {p : List ℕ} :
    goodStream (g :: gs) (p :: ps') ↔
      p.length = 32 ∧ findTail (g ++ p ++ sentinel.take 3) = none ∧
        goodStream gs ps' := Iff.rfl

theorem goodStream_last_iff {g : List ℕ} :
    goodStream [g] [] ↔ findTail g = none := Iff.rfl

theorem goodStream_shape {gs ps : List (List ℕ)} (h : goodStream gs ps) :
    (∃ g, gs = [g] ∧ ps = []) ∨
      (∃ g gs' p ps', gs = g :: gs' ∧ ps = p :: ps') := by
  match gs, ps with
  | g :: gs', p :: ps' => exact Or.inr ⟨g, gs', p, ps', rfl, rfl⟩
  | [g], [] => exact Or.inl ⟨g, rfl, rfl⟩
  | [], [] => exact h.elim
  | [], p :: ps' => exact h.elim
  | g :: g' :: gs', [] => exact h.elim

/-- Dropping a prefix of the leading garbage run preserves well-formedness. -/
theorem goodStream_drop_head {g : List ℕ} {gs ps : List (List ℕ)} {d : ℕ}
    (h : goodStream (g :: gs) ps) : goodStream (g.drop d :: gs) ps := by
  have key : ∀ X : List ℕ, findTail (g ++ X) = none → findTail (g.drop d ++ X) = none := by
    intro X hX
    by_cases hd : d ≤ g.length
    · have : g.drop d ++ X = (g ++ X).drop d := by
        rw [List.drop_append_eq_append_drop, Nat.sub_eq_zero_of_le hd, List.drop_zero]
      rw [this]
      exact findTail_none_of_drop hX
    · rw [List.drop_eq_nil_of_le (by omega), List.nil_append]
      have := findTail_none_of_drop (d := g.length) hX
      rw [List.drop_append_eq_append_drop, Nat.sub_self, List.drop_zero,
        List.drop_eq_nil_of_le (le_refl _), List.nil_append] at this
      exact this
  match gs, ps with
  | [], [] =>
    exact goodStream_last_iff.mpr (findTail_none_of_drop (goodStream_last_iff.mp h))
  | [], p :: ps' =>
    obtain ⟨h1, h2, h3⟩ := goodStream_cons_iff.mp h
    rw [List.append_assoc] at h2
    have h2' := key (p ++ sentinel.take 3) h2
    rw [← List.append_assoc] at h2'
    exact goodStream_cons_iff.mpr ⟨h1, h2', h3⟩
  | g' :: gs', p :: ps' =>
    obtain ⟨h1, h2, h3⟩ := goodStream_cons_iff.mp h
    rw [List.append_assoc] at h2
    have h2' := key (p ++ sentinel.take 3) h2
    rw [← List.append_assoc] at h2'
    exact goodStream_cons_iff.mpr ⟨h1, h2', h3⟩
  | g' :: gs', [] => exact h.elim

/-! ### Decode lemmas -/

theorem slice_length {fd : List ℕ} (h : fd.length = 32) {i : ℕ} (hi : i < 8) :
    ((fd.drop (i * 4)).take 4).length = 4 := by
  simp only [List.length_take, List.length_drop, h]
  omega

theorem decodeFloatsLE_eq_some {fd : List ℕ} (h : fd.length = 32)
    {is : List ℕ} (his : ∀ i ∈ is, i < 8) :
    decodeFloatsLE fd is =
      some (is.map fun i => f32OfWord (wordLE ((fd.drop (i * 4)).take 4))) := by
  induction is with
  | nil => rfl
  | cons i is ih =>
    have hi : i < 8 := his i (List.mem_cons_self i is)
    have hs : unpackLE ((fd.drop (i * 4)).take 4) =
        some (f32OfWord (wordLE ((fd.drop (i * 4)).take 4))) := by
      unfold unpackLE
      rw [if_pos (slice_length h hi)]
    unfold decodeFloatsLE
    rw [hs, ih (fun j hj => his j (List.mem_cons_of_mem i hj))]
    rfl

theorem decodeFrameLEOpt_eq_some {fd : List ℕ} (h : fd.length = 32) :
    decodeFrameLEOpt fd = some (decodeFrameLE fd) := by
  unfold decodeFrameLEOpt decodeFrameLE
  exact decodeFloatsLE_eq_some h (fun i hi => List.mem_range.mp hi)

/-! ### Step equations and fuel adequacy for the process loop -/

theorem stepSH_short {buf : List ℕ} (h : buf.length < 36) :
    stepSH buf = .stop buf := by
  unfold stepSH
  rw [if_pos h]

theorem stepSH_noTail {buf : List ℕ} (h36 : ¬ buf.length < 36)
    (ht : findTail buf = none) :
    stepSH buf = .stop (if 360 < buf.length then buf.drop (buf.length - 36) else buf) := by
  unfold stepSH
  rw [if_neg h36, ht]

theorem stepSH_discard {buf : List ℕ} {t : ℕ} (h36 : ¬ buf.length < 36)
    (ht : findTail buf = some t) (h32 : t < 32) :
    stepSH buf = .cont none (buf.drop (t + 4)) := by
  unfold stepSH
  rw [if_neg h36, ht]
  show (if t < 32 then StepRes.cont none (buf.drop (t + 4)) else _) = _
  rw [if_pos h32]

theorem stepSH_frame {buf : List ℕ} {t : ℕ} {vs : List F32}
    (h36 : ¬ buf.length < 36) (ht : findTail buf = some t) (h32 : ¬ t < 32)
    (hd : decodeFrameLEOpt ((buf.drop (t - 32)).take 32) = some vs) :
    stepSH buf = .cont (some vs) (buf.drop (t + 4)) := by
  unfold stepSH
  rw [if_neg h36, ht]
  show (if t < 32 then StepRes.cont none (buf.drop (t + 4)) else _) = _
  rw [if_neg h32, hd]

/-- Any continuing iteration consumes at least 4 bytes. -/
theorem stepSH_cont_length {buf b : List ℕ} {o : Option (List F32)}
    (h : stepSH buf = .cont o b) : b.length + 4 ≤ buf.length := by
  by_cases h36 : buf.length < 36
  · rw [stepSH_short h36] at h
    exact absurd h (by simp)
  · cases ht : findTail buf with
    | none =>
      rw [stepSH_noTail h36 ht] at h
      exact absurd h (by simp)
    | some t =>
      have hlb := occursAt_length (findTail_some_occursAt ht)
      by_cases h32 : t < 32
      · rw [stepSH_discard h36 ht h32] at h
        cases h
        simp only [List.length_drop]
        omega
      · cases hd : decodeFrameLEOpt ((buf.drop (t - 32)).take 32) with
        | none =>
          have : stepSH buf = .cont none (buf.drop (t + 4)) := by
            unfold stepSH
            rw [if_neg h36, ht]
            show (if t < 32 then StepRes.cont none (buf.drop (t + 4)) else _) = _
            rw [if_neg h32, hd]
          rw [this] at h
          cases h
          simp only [List.length_drop]
          omega
        | some vs =>
          rw [stepSH_frame h36 ht h32 hd] at h
          cases h
          simp only [List.length_drop]
          omega

theorem processSHAux_stop {fuel : ℕ} {buf b : List ℕ} (h : stepSH buf = .stop b) :
    processSHAux (fuel + 1) buf = ([], b) := by
  rw [processSHAux, h]

theorem processSHAux_cont_none {fuel : ℕ} {buf b : List ℕ}
    (h : stepSH buf = .cont none b) :
    processSHAux (fuel + 1) buf = processSHAux fuel b := by
  rw [processSHAux, h]

theorem processSHAux_cont_some {fuel : ℕ} {buf b : List ℕ} {vs : List F32}
    (h : stepSH buf = .cont (some vs) b) :
    processSHAux (fuel + 1) buf =
      (vs :: (processSHAux fuel b).1, (processSHAux fuel b).2) := by
  rw [processSHAux, h]

theorem processSHAux_fuel_irrel :
    ∀ f1 : ℕ, ∀ f2 : ℕ, ∀ buf : List ℕ, buf.length ≤ f1 → buf.length ≤ f2 →
    processSHAux f1 buf = processSHAux f2 buf := by
  intro f1
  induction f1 with
  | zero =>
    intro f2 buf h1 h2
    have : buf = [] := List.length_eq_zero.mp (Nat.le_zero.mp h1)
    subst this
    cases f2 with
    | zero => rfl
    | succ f2 => rw [processSHAux_stop (stepSH_short (by simp))]; rfl
  | succ f1 ih =>
    intro f2 buf h1 h2
    cases f2 with
    | zero =>
      have : buf = [] := List.length_eq_zero.mp (Nat.le_zero.mp h2)
      subst this
      rw [processSHAux_stop (stepSH_short (by simp))]
      rfl
    | succ f2 =>
      cases hs : stepSH buf with
      | stop b => rw [processSHAux_stop hs, processSHAux_stop hs]
      | cont o b =>
        have hlb := stepSH_cont_length hs
        have hb1 : b.length ≤ f1 := by omega
        have hb2 : b.length ≤ f2 := by omega
        cases o with
        | none =>
          rw [processSHAux_cont_none hs, processSHAux_cont_none hs]
          exact ih f2 b hb1 hb2
        | some vs =>
          rw [processSHAux_cont_some hs, processSHAux_cont_some hs, ih f2 b hb1 hb2]

theorem processBufferSH_eq_aux {fuel : ℕ} {buf : List ℕ} (h : buf.length ≤ fuel) :
    processSHAux fuel buf = processBufferSH buf :=
  processSHAux_fuel_irrel fuel buf.length buf h (le_refl _)

/-! ### Canonical processing of a well-formed stream -/

theorem stream_cons {g : List ℕ} {gs' ps' : List (List ℕ)} {p : List ℕ} :
    stream (g :: gs') (p :: ps') = (g ++ (p ++ sentinel)) ++ stream gs' ps' := rfl

theorem stream_last {g : List ℕ} : stream [g] [] = g := rfl

theorem sentinel_split : sentinel = sentinel.take 3 ++ sentinel.drop 3 :=
  (List.take_append_drop 3 sentinel).symm

theorem occursAt_append_self {x y : List ℕ} (h : sentinel <+: y) :
    occursAt (x ++ y) x.length := by
  unfold occursAt
  rw [List.drop_left]
  exact h

/-- In a well-formed stream headed by garbage `g` and payload `p`, no
sentinel occurrence starts before `g.length + 32`. -/
theorem stream_no_early_occurrence {g p : List ℕ} {rest : List ℕ} {i : ℕ}
    (hp : p.length = 32) (hg : findTail (g ++ p ++ sentinel.take 3) = none)
    (hi : i < g.length + 32)
    (hocc : occursAt ((g ++ (p ++ sentinel)) ++ rest) i) : False := by
  have hpre : (g ++ p ++ sentinel.take 3) <+: ((g ++ (p ++ sentinel)) ++ rest) := by
    have : (g ++ (p ++ sentinel)) ++ rest =
        (g ++ p ++ sentinel.take 3) ++ (sentinel.drop 3 ++ rest) := by
      simp only [List.append_assoc]
      rw [← List.append_assoc (sentinel.take 3), List.take_append_drop]
    rw [this]
    exact List.prefix_append _ _
  have hlen : i + 4 ≤ (g ++ p ++ sentinel.take 3).length := by
    simp only [List.length_append, hp]
    have : (sentinel.take 3).length = 3 := by decide
    omega
  exact (findTail_eq_none_iff.mp hg i) (occursAt_restrict hpre hlen hocc)

/-- The frame terminator is an occurrence at position `g.length + 32`. -/
theorem stream_terminator_occurrence {g p : List ℕ} {rest : List ℕ}
    (hp : p.length = 32) :
    occursAt ((g ++ (p ++ sentinel)) ++ rest) (g.length + 32) := by
  have h1 : (g ++ (p ++ sentinel)) ++ rest = (g ++ p) ++ (sentinel ++ rest) := by
    simp [List.append_assoc]
  rw [h1]
  have h2 : (g ++ p).length = g.length + 32 := by
    simp [List.length_append, hp]
  rw [← h2]
  exact occursAt_append_self (List.prefix_append _ _)

/-- Canonical behaviour of one `process_buffer` call on a buffer `b` that,
followed by the not-yet-fed remainder `S`, forms a well-formed stream: the
call emits the decoded payloads of some leading frames, the residual buffer
with `S` is again a well-formed stream, and the residual buffer is inert
(shorter than a frame, or sentinel-free). -/
theorem processSHAux_canon :
    ∀ fuel : ℕ, ∀ b S : List ℕ, ∀ gsR psR : List (List ℕ),
    b.length ≤ fuel → goodStream gsR psR → b ++ S = stream gsR psR →
    ∃ ps1 ps2 gsR2,
      psR = ps1 ++ ps2 ∧
      (processSHAux fuel b).1 = ps1.map decodeFrameLE ∧
      goodStream gsR2 ps2 ∧
      (processSHAux fuel b).2 ++ S = stream gsR2 ps2 ∧
      ((processSHAux fuel b).2.length < 36 ∨ findTail (processSHAux fuel b).2 = none) := by
  intro fuel
  induction fuel with
  | zero =>
    intro b S gsR psR hf hg hbs
    have hb : b = [] := List.length_eq_zero.mp (Nat.le_zero.mp hf)
    subst hb
    exact ⟨[], psR, gsR, rfl, rfl, hg, hbs, Or.inl (by decide)⟩
  | succ fuel ih =>
    intro b S gsR psR hf hg hbs
    by_cases h36 : b.length < 36
    · rw [processSHAux_stop (stepSH_short h36)]
      exact ⟨[], psR, gsR, rfl, rfl, hg, hbs, Or.inl h36⟩
    · cases ht : findTail b with
      | none =>
        rw [processSHAux_stop (stepSH_noTail h36 ht)]
        by_cases h360 : 360 < b.length
        · rw [if_pos h360]
          have hd_le_b : b.length - 36 ≤ b.length := by omega
          have hsplit : b.drop (b.length - 36) ++ S = (b ++ S).drop (b.length - 36) := by
            rw [List.drop_append_eq_append_drop, Nat.sub_eq_zero_of_le hd_le_b,
              List.drop_zero]
          rcases goodStream_shape hg with ⟨g, rfl, rfl⟩ | ⟨g, gs', p, ps', rfl, rfl⟩
          · refine ⟨[], [], [b.drop (b.length - 36) ++ S], rfl, rfl, ?_, rfl, ?_⟩
            · rw [goodStream_last_iff, hsplit, hbs, stream_last]
              exact findTail_none_of_drop (goodStream_last_iff.mp hg)
            · exact Or.inr (findTail_none_of_drop ht)
          · obtain ⟨hp, hgg, hrest⟩ := goodStream_cons_iff.mp hg
            have hble : b.length ≤ g.length + 35 := by
              by_contra hc
              push_neg at hc
              have hocc : occursAt b (g.length + 32) := by
                apply occursAt_restrict (List.prefix_append b S) (by omega)
                rw [hbs, stream_cons]
                exact stream_terminator_occurrence hp
              exact (findTail_eq_none_iff.mp ht _) hocc
            have hd : b.length - 36 ≤ g.length := by omega
            refine ⟨[], p :: ps', g.drop (b.length - 36) :: gs', rfl, rfl,
              goodStream_drop_head hg, ?_, Or.inr (findTail_none_of_drop ht)⟩
            rw [hsplit, hbs, stream_cons, stream_cons, List.append_assoc,
              List.drop_append_eq_append_drop, Nat.sub_eq_zero_of_le hd,
              List.drop_zero]
            simp [List.append_assoc]
        · rw [if_neg h360]
          exact ⟨[], psR, gsR, rfl, rfl, hg, hbs, Or.inr ht⟩
      | some t =>
        rcases goodStream_shape hg with ⟨g, rfl, rfl⟩ | ⟨g, gs', p, ps', rfl, rfl⟩
        · exfalso
          have hocc : occursAt (b ++ S) t :=
            occursAt_extend (List.prefix_append b S) (findTail_some_occursAt ht)
          have hgn : findTail (b ++ S) = none := by
            rw [hbs, stream_last]
            exact goodStream_last_iff.mp hg
          exact (findTail_eq_none_iff.mp hgn t) hocc
        · obtain ⟨hp, hgg, hrest⟩ := goodStream_cons_iff.mp hg
          have hocc_b := findTail_some_occursAt ht
          have hocc_bs : occursAt (b ++ S) t :=
            occursAt_extend (List.prefix_append b S) hocc_b
          have ht32 : g.length + 32 ≤ t := by
            by_contra hc
            push_neg at hc
            rw [hbs, stream_cons] at hocc_bs
            exact stream_no_early_occurrence hp hgg hc hocc_bs
          have htlen : t + 4 ≤ b.length := occursAt_length hocc_b
          have hocc32 : occursAt b (g.length + 32) := by
            apply occursAt_restrict (List.prefix_append b S) (by omega)
            rw [hbs, stream_cons]
            exact stream_terminator_occurrence hp
          have hteq : t = g.length + 32 :=
            le_antisymm (findTail_min ht hocc32) ht32
          have hsentlen : ((g ++ p) ++ sentinel).length = g.length + 36 := by
            simp [List.length_append, hp, sentinel]
          have hbeq : b = ((g ++ p) ++ sentinel) ++
              (stream gs' ps').take (b.length - (g.length + 36)) := by
            conv_lhs => rw [← List.take_left b S, hbs]
            rw [stream_cons, ← List.append_assoc g p sentinel,
              List.take_append_eq_append_take,
              List.take_of_length_le (show ((g ++ p) ++ sentinel).length ≤ b.length by
                rw [hsentlen]; omega),
              hsentlen]
          set r := (stream gs' ps').take (b.length - (g.length + 36)) with hrdef
          have hrS : r ++ S = stream gs' ps' := by
            have hx := hbs
            rw [stream_cons] at hx
            conv_lhs at hx => rw [hbeq]
            simp only [List.append_assoc] at hx
            exact List.append_cancel_left (List.append_cancel_left
              (List.append_cancel_left hx))
          have hdrop : b.drop (t + 4) = r := by
            conv_lhs => rw [hbeq]
            rw [show t + 4 = g.length + 36 from by omega, ← hsentlen, List.drop_left]
          have hfd : (b.drop (t - 32)).take 32 = p := by
            conv_lhs => rw [hbeq]
            rw [show t - 32 = g.length from by omega]
            have h4 : ((g ++ p) ++ sentinel) ++ r = g ++ (p ++ (sentinel ++ r)) := by
              simp [List.append_assoc]
            rw [h4, List.drop_left, List.take_append_eq_append_take,
              List.take_of_length_le (by omega), hp, Nat.sub_self, List.take_zero,
              List.append_nil]
          have h32 : ¬ t < 32 := by omega
          have hdec : decodeFrameLEOpt ((b.drop (t - 32)).take 32) =
              some (decodeFrameLE p) := by
            rw [hfd]
            exact decodeFrameLEOpt_eq_some hp
          have hfd' : decodeFrameLE ((b.drop (t - 32)).take 32) = decodeFrameLE p := by
            rw [hfd]
          rw [processSHAux_cont_some (stepSH_frame h36 ht h32 hdec)]
          have hfuel : (b.drop (t + 4)).length ≤ fuel := by
            simp only [List.length_drop]
            omega
          obtain ⟨ps1, ps2, gsR2, hps, hout, hgood2, hres, hrp⟩ :=
            ih (b.drop (t + 4)) S gs' ps' hfuel hrest (by rw [hdrop]; exact hrS)
          refine ⟨p :: ps1, ps2, gsR2, by rw [hps, List.cons_append], ?_, hgood2, hres, hrp⟩
          simp only [List.map_cons]
          rw [hout]

/-- Feeding any chunking of a well-formed stream into `process_buffer`
emits exactly the decoded frame payloads, in order. -/
theorem feedAll_canon :
    ∀ chunks : List (List ℕ), ∀ b : List ℕ, ∀ gsR psR : List (List ℕ),
    goodStream gsR psR → b ++ chunks.flatten = stream gsR psR →
    (b.length < 36 ∨ findTail b = none) →
    (feedAll chunks b).1 = psR.map decodeFrameLE := by
  intro chunks
  induction chunks with
  | nil =>
    intro b gsR psR hg hbs hrp
    rcases goodStream_shape hg with ⟨g, rfl, rfl⟩ | ⟨g, gs', p, ps', rfl, rfl⟩
    · rfl
    · exfalso
      obtain ⟨hp, hgg, hrest⟩ := goodStream_cons_iff.mp hg
      have hb : b = stream (g :: gs') (p :: ps') := by simpa using hbs
      have hocc : occursAt b (g.length + 32) := by
        rw [hb, stream_cons]
        exact stream_terminator_occurrence hp
      rcases hrp with hlen | hnone
      · have := occursAt_length hocc
        omega
      · exact (findTail_eq_none_iff.mp hnone _) hocc
  | cons c cs ih =>
    intro b gsR psR hg hbs hrp
    have hbs' : (b ++ c) ++ cs.flatten = stream gsR psR := by
      rw [List.append_assoc]
      simpa using hbs
    obtain ⟨ps1, ps2, gsR2, hps, hout, hgood2, hres, hrp2⟩ :=
      processSHAux_canon (b ++ c).length (b ++ c) cs.flatten gsR psR (le_refl _) hg hbs'
    have hfeed : (feedAll (c :: cs) b).1 =
        (processBufferSH (b ++ c)).1 ++ (feedAll cs (processBufferSH (b ++ c)).2).1 := rfl
    rw [hfeed, hps, List.map_append]
    have h1 : (processBufferSH (b ++ c)).1 = ps1.map decodeFrameLE := hout
    have h2 : (feedAll cs (processBufferSH (b ++ c)).2).1 = ps2.map decodeFrameLE :=
      ih (processBufferSH (b ++ c)).2 gsR2 ps2 hgood2 hres hrp2
    rw [h1, h2]

/-! ### Touch detector (`modules/touch_detector.py`) -/

/-- The activated-index list comprehension of `TouchDetector.detect_touch`
(lines 42-43): `[i for i, signal in enumerate(signals) if signal > threshold]`. -/
def activatedIdx (threshold : ℚ) (signals : List ℚ) : List ℕ :=
  signals.enum.filterMap fun pr => if threshold < pr.2 then some pr.1 else none

/-- `TouchDetector.detect_touch` (lines 24-59).  Returns `(row, col)` for a
single touch and `(-1, -1)` otherwise.  The Python guard
`if not values or len(values) < 8` collapses to the length test (an empty
list has length `0 < 8`); the `len == 1` checks and `[0]` extractions are
expressed as a match on singleton lists.  Signal emission is a side effect
omitted from the pure result. -/
def detect_touch (threshold : ℚ) (values : List ℚ) : ℤ × ℤ :=
  if values.length < 8 then (-1, -1)
  else
    match activatedIdx threshold (values.take 4), activatedIdx threshold (values.drop 4) with
    | [r], [c] => ((r : ℤ), (c : ℤ))
    | _, _ => (-1, -1)

/-! ### Data manager (`modules/data_manager.py`) -/

/-- State of `DataManager`: per-channel display and full series of
`(voltage, time)` points, the acquisition start time, and the wall-clock
instant of the last accepted update. -/
structure DataManager where
  display_data : List (List (ℚ × ℚ))
  full_data : List (List (ℚ × ℚ))
  data_acquisition_start_time : Option ℚ
  last_update_time : ℚ
  deriving DecidableEq, Repr

/-- `DataManager.__init__` (lines 16-22). -/
def initDataManager : DataManager :=
  { display_data := List.replicate 8 []
    full_data := List.replicate 8 []
    data_acquisition_start_time := none
    last_update_time := 0 }

/-- `DataManager.add_data_point` (lines 24-45), with the two `time.time()`
reads of one call merged into the explicit parameter `now`.  If less than
0.05 s (the 20 Hz limiter; `0.05` is taken at its exact decimal value)
passed since the last accepted update, the sample is dropped and `False`
returned; otherwise one `(voltage, time)` point is appended to channel `i`'s
full series for each `i < 8` with `i < len(values)`, and `True` returned.
The `data_updated` signal emission is a side effect omitted here. -/
def add_data_point (dm : DataManager) (values : List ℚ) (current_time_s : ℚ)
    (now : ℚ) : DataManager × Bool :=
  if now - dm.last_update_time < mkRat 1 20 then (dm, false)
  else
    ({ dm with
        data_acquisition_start_time :=
          match dm.data_acquisition_start_time with
          | none => some current_time_s
          | some s => some s
        full_data := (List.range 8).map fun i =>
          dm.full_data.getD i [] ++
            if i < values.length then [(values.getD i 0, current_time_s)] else []
        last_update_time := now },
      true)

/-- `DataManager.get_all_data` (lines 53-55): the full-history snapshot
handed to the CSV/JSON exporter. -/
def get_all_data (dm : DataManager) : List (List (ℚ × ℚ)) := dm.full_data

/-! ### Time base (`serial_handler.py` / `serial_manager.py`) -/

/-- The time-base state of `SerialThread`: `start_time` and `time_offset`. -/
structure ThreadTime where
  start_time : ℚ
  time_offset : ℚ
  deriving DecidableEq, Repr

/-- `SerialThread.__init__` (serial_handler.py lines 20-36): `start_time`
is the construction instant (`time.time()`, here the explicit `now`) and
`time_offset` is `start_time - start_time_with_offset` when that argument
is given, else `0`. -/
def threadInit (now : ℚ) (start_time_with_offset : Option ℚ) : ThreadTime :=
  { start_time := now
    time_offset :=
      match start_time_with_offset with
      | none => 0
      | some swo => now - swo }

/-- The relative timestamp stamped on each frame (line 135):
`(current_time - self.start_time) + self.time_offset`. -/
def relativeTime (th : ThreadTime) (now : ℚ) : ℚ :=
  (now - th.start_time) + th.time_offset

/-- `SerialThread.stop` (lines 148-154), time bookkeeping only:
`self.time_offset = time.time() - self.start_time`. -/
def threadStop (th : ThreadTime) (now : ℚ) : ThreadTime :=
  { th with time_offset := now - th.start_time }

/-- `SerialManager.connect_serial` (serial_manager.py lines 85-99), time
bookkeeping only: `start_time_with_offset = current_time - last_time_offset`
is passed to the new `SerialThread`.  `managerNow` is the manager's
`time.time()` read, `threadNow` the thread's own read in `__init__`. -/
def connectSerial (last_time_offset : ℚ) (managerNow threadNow : ℚ) : ThreadTime :=
  threadInit threadNow (some (managerNow - last_time_offset))

/-- `SerialManager.disconnect_serial` (lines 117-131), time bookkeeping
only: `main_window.last_time_offset = serial_thread.time_offset` is saved
first (line 123), then `stop()` runs (line 126).  Returns the saved
`last_time_offset` and the stopped thread state. -/
def disconnectSerial (th : ThreadTime) (now : ℚ) : ℚ × ThreadTime :=
  (th.time_offset, threadStop th now)

theorem activatedIdx_shift (thr : ℚ) :
    ∀ (xs : List ℚ) (n : ℕ),
    (xs.enumFrom (n + 1)).filterMap
        (fun pr => if thr < pr.2 then some pr.1 else none) =
      ((xs.enumFrom n).filterMap
        (fun pr => if thr < pr.2 then some pr.1 else none)).map (· + 1) := by
  intro xs
  induction xs with
  | nil => intro n; rfl
  | cons x xs ih =>
    intro n
    show List.filterMap _ ((n + 1, x) :: xs.enumFrom (n + 2)) =
      (List.filterMap _ ((n, x) :: xs.enumFrom (n + 1))).map (· + 1)
    rw [List.filterMap_cons, List.filterMap_cons]
    by_cases h : thr < x
    · simp only [if_pos h, List.map_cons, ih]
    · simp only [if_neg h, ih]

theorem activatedIdx_cons (thr s : ℚ) (rest : List ℚ) :
    activatedIdx thr (s :: rest) =
      (if thr < s then [0] else []) ++ (activatedIdx thr rest).map (· + 1) := by
  unfold activatedIdx
  show List.filterMap _ ((0, s) :: rest.enumFrom 1) = _
  rw [List.filterMap_cons, activatedIdx_shift]
  by_cases h : thr < s
  · simp only [if_pos h, List.singleton_append]
    rfl
  · simp only [if_neg h, List.nil_append]
    rfl

theorem mem_activatedIdx {thr : ℚ} :
    ∀ {sig : List ℚ} {i : ℕ},
    i ∈ activatedIdx thr sig ↔ i < sig.length ∧ thr < sig.getD i 0 := by
  intro sig
  induction sig with
  | nil =>
    intro i
    constructor
    · intro h; exact absurd h (by simp [activatedIdx])
    · intro h; exact absurd h.1 (by simp)
  | cons s rest ih =>
    intro i
    rw [activatedIdx_cons, List.mem_append, List.mem_map]
    match i with
    | 0 =>
      simp only [List.length_cons, List.getD_cons_zero]
      constructor
      · rintro (h0 | ⟨j, _, hj⟩)
        · by_cases h : thr < s
          · exact ⟨Nat.succ_pos _, h⟩
          · rw [if_neg h] at h0
            exact absurd h0 (by simp)
        · exact absurd hj (by omega)
      · intro ⟨_, h⟩
        exact Or.inl (by rw [if_pos h]; exact List.mem_singleton.mpr rfl)
    | j + 1 =>
      simp only [List.length_cons, List.getD_cons_succ]
      constructor
      · rintro (h0 | ⟨j', hj', heq⟩)
        · by_cases h : thr < s
          · rw [if_pos h] at h0
            exact absurd (List.mem_singleton.mp h0) (by omega)
          · rw [if_neg h] at h0
            exact absurd h0 (by simp)
        · have : j' = j := by omega
          subst this
          have := ih.mp hj'
          exact ⟨by omega, this.2⟩
      · intro ⟨h1, h2⟩
        exact Or.inr ⟨j, ih.mpr ⟨by omega, h2⟩, rfl⟩

theorem activatedIdx_nodup (thr : ℚ) :
    ∀ sig : List ℚ, (activatedIdx thr sig).Nodup := by
  intro sig
  induction sig with
  | nil => simp [activatedIdx]
  | cons s rest ih =>
    rw [activatedIdx_cons]
    have hmap : ((activatedIdx thr rest).map (· + 1)).Nodup :=
      ih.map (fun a b => by omega)
    by_cases h : thr < s
    · rw [if_pos h, List.singleton_append, List.nodup_cons]
      refine ⟨?_, hmap⟩
      intro hc
      obtain ⟨j, _, hj⟩ := List.mem_map.mp hc
      omega
    · rw [if_neg h, List.nil_append]
      exact hmap

theorem nodup_all_eq_singleton {A : List ℕ} {r : ℕ} (hnd : A.Nodup)
    (hmem : r ∈ A) (hall : ∀ i ∈ A, i = r) : A = [r] := by
  match A, hmem with
  | a :: A', _ =>
    have ha : a = r := hall a (List.mem_cons_self a A')
    subst ha
    rw [List.nodup_cons] at hnd
    have : A' = [] := by
      cases hA' : A' with
      | nil => rfl
      | cons b B =>
        have hb : b = a := hall b (by rw [hA']; exact List.mem_cons_of_mem a (List.mem_cons_self b B))
        exfalso
        apply hnd.1
        rw [hA', hb]
        exact List.mem_cons_self a B
    rw [this]

/-- `activatedIdx` is `[r]` exactly when `r` is the unique index whose
signal exceeds the threshold. -/
theorem activatedIdx_eq_singleton_iff {thr : ℚ} {sig : List ℚ} {r : ℕ} :
    activatedIdx thr sig = [r] ↔
      (r < sig.length ∧ thr < sig.getD r 0 ∧
        ∀ i, i < sig.length → thr < sig.getD i 0 → i = r) := by
  constructor
  · intro h
    have hr : r ∈ activatedIdx thr sig := by
      rw [h]
      exact List.mem_singleton.mpr rfl
    obtain ⟨h1, h2⟩ := mem_activatedIdx.mp hr
    refine ⟨h1, h2, fun i hi hti => ?_⟩
    have : i ∈ activatedIdx thr sig := mem_activatedIdx.mpr ⟨hi, hti⟩
    rw [h] at this
    exact List.mem_singleton.mp this
  · rintro ⟨h1, h2, h3⟩
    exact nodup_all_eq_singleton (activatedIdx_nodup thr sig)
      (mem_activatedIdx.mpr ⟨h1, h2⟩)
      (fun i hi => by
        obtain ⟨hi1, hi2⟩ := mem_activatedIdx.mp hi
        exact h3 i hi1 hi2)

theorem detect_touch_shape {threshold : ℚ} {values : List ℚ}
    (h8 : ¬ values.length < 8) :
    detect_touch threshold values = (-1, -1) ∨
      ∃ r c : ℕ, activatedIdx threshold (values.take 4) = [r] ∧
        activatedIdx threshold (values.drop 4) = [c] ∧
        detect_touch threshold values = ((r : ℤ), (c : ℤ)) := by
  unfold detect_touch
  rw [if_neg h8]
  rcases hA : activatedIdx threshold (values.take 4) with _ | ⟨a, _ | ⟨a2, A⟩⟩ <;>
    rcases hB : activatedIdx threshold (values.drop 4) with _ | ⟨b, _ | ⟨b2, B⟩⟩ <;>
    first
      | exact Or.inl rfl
      | exact Or.inr ⟨_, _, rfl, rfl, rfl⟩

theorem detect_touch_eq_pair_iff {threshold : ℚ} {values : List ℚ}
    (h8 : ¬ values.length < 8) (r c : ℕ) :
    detect_touch threshold values = ((r : ℤ), (c : ℤ)) ↔
      activatedIdx threshold (values.take 4) = [r] ∧
        activatedIdx threshold (values.drop 4) = [c] := by
  constructor
  · intro h
    rcases @detect_touch_shape threshold values h8 with
      hd | ⟨a, b, hA, hB, hd⟩
    · exfalso
      have h2 := hd.symm.trans h
      simp only [Prod.mk.injEq] at h2
      omega
    · have h2 := hd.symm.trans h
      simp only [Prod.mk.injEq] at h2
      have ha : a = r := by omega
      have hb : b = c := by omega
      subst ha
      subst hb
      exact ⟨hA, hB⟩
  · rintro ⟨hA, hB⟩
    unfold detect_touch
    rw [if_neg h8, hA, hB]

theorem getD_take_lt {l : List ℚ} {i n : ℕ} (h : i < n) :
    (l.take n).getD i 0 = l.getD i 0 := by
  rw [List.getD_eq_getElem?_getD, List.getD_eq_getElem?_getD, List.getElem?_take,
    if_pos h]

theorem getD_drop_add {l : List ℚ} {i n : ℕ} :
    (l.drop n).getD i 0 = l.getD (n + i) 0 := by
  rw [List.getD_eq_getElem?_getD, List.getD_eq_getElem?_getD, List.getElem?_drop]

/-! ### Claim theorems -/

/-- C5: `TouchDetector.detect_touch` is a pure function of
`(values, threshold)`; on an 8-value input it returns `(row, col)` exactly
when `row` is the unique index `< 4` with `values[row] > threshold` and
`col` is the unique index `< 4` with `values[4+col] > threshold` (zero or
several activations of either kind give the no-touch result by the same
equivalence); in particular `[0.6,0,0,0, 0,0,0.7,0]` with threshold `0.5`
gives `(0, 2)` and all-zero values give `(-1, -1)`. -/
theorem C5_detect_touch_characterisation :
    (∀ (values : List ℚ) (threshold : ℚ), values.length = 8 →
      ∀ r c : ℕ,
        detect_touch threshold values = ((r : ℤ), (c : ℤ)) ↔
          (r < 4 ∧ threshold < values.getD r 0 ∧
            (∀ i, i < 4 → threshold < values.getD i 0 → i = r) ∧
           c < 4 ∧ threshold < values.getD (4 + c) 0 ∧
            (∀ j, j < 4 → threshold < values.getD (4 + j) 0 → j = c))) ∧
    detect_touch (mkRat 1 2) [mkRat 3 5, 0, 0, 0, 0, 0, mkRat 7 10, 0] = (0, 2) ∧
    detect_touch (mkRat 1 2) [0, 0, 0, 0, 0, 0, 0, 0] = (-1, -1) := by
  refine ⟨?_, by decide, by decide⟩
  intro values threshold h8 r c
  have h8' : ¬ values.length < 8 := by omega
  rw [detect_touch_eq_pair_iff h8' r c,
    activatedIdx_eq_singleton_iff, activatedIdx_eq_singleton_iff]
  have hlt : (values.take 4).length = 4 := by
    rw [List.length_take]
    omega
  have hld : (values.drop 4).length = 4 := by
    rw [List.length_drop]
    omega
  rw [hlt, hld]
  constructor
  · rintro ⟨⟨hr4, hrv, hru⟩, ⟨hc4, hcv, hcu⟩⟩
    rw [getD_take_lt hr4] at hrv
    rw [getD_drop_add] at hcv
    refine ⟨hr4, hrv, ?_, hc4, hcv, ?_⟩
    · intro i hi hvi
      exact hru i hi (by rw [getD_take_lt hi]; exact hvi)
    · intro j hj hvj
      exact hcu j hj (by rw [getD_drop_add]; exact hvj)
  · rintro ⟨hr4, hrv, hru, hc4, hcv, hcu⟩
    refine ⟨⟨hr4, by rw [getD_take_lt hr4]; exact hrv, ?_⟩,
      ⟨hc4, by rw [getD_drop_add]; exact hcv, ?_⟩⟩
    · intro i hi hvi
      rw [getD_take_lt hi] at hvi
      exact hru i hi hvi
    · intro j hj hvj
      rw [getD_drop_add] at hvj
      exact hcu j hj hvj

/-- Witness for C5 at a concrete single-touch input. -/
theorem C5_witness :
    detect_touch (mkRat 1 2) [1, 0, 0, 0, 0, 1, 0, 0] = ((0 : ℤ), (1 : ℤ)) :=
  (C5_detect_touch_characterisation.1 [1, 0, 0, 0, 0, 1, 0, 0] (mkRat 1 2)
    (by decide) 0 1).mpr (by decide)

/-- C10: `detect_touch` is total and confined: any input shorter than 8
values (the empty list included) yields `(-1, -1)` without error, and on
any 8-value input the result is `(-1, -1)` or a pair with both coordinates
in `0..3`.  (Totality over all list inputs is witnessed by the function
being defined for every `values : List ℚ`.) -/
theorem C10_detect_touch_confined :
    (∀ (values : List ℚ) (threshold : ℚ), values.length < 8 →
      detect_touch threshold values = (-1, -1)) ∧
    (∀ (values : List ℚ) (threshold : ℚ), values.length = 8 →
      detect_touch threshold values = (-1, -1) ∨
        ∃ r c : ℕ, r < 4 ∧ c < 4 ∧
          detect_touch threshold values = ((r : ℤ), (c : ℤ))) := by
  constructor
  · intro values threshold hlen
    unfold detect_touch
    rw [if_pos hlen]
  · intro values threshold h8
    have h8' : ¬ values.length < 8 := by omega
    rcases @detect_touch_shape threshold values h8' with
      hd | ⟨a, b, hA, hB, hd⟩
    · exact Or.inl hd
    · right
      have ha : a < 4 := by
        have := (mem_activatedIdx.mp (by rw [hA]; exact List.mem_singleton.mpr rfl)).1
        rw [List.length_take] at this
        omega
      have hb : b < 4 := by
        have := (mem_activatedIdx.mp (by rw [hB]; exact List.mem_singleton.mpr rfl)).1
        rw [List.length_drop] at this
        omega
      exact ⟨a, b, ha, hb, hd⟩

/-- Witness for C10 at concrete short and 8-value inputs. -/
theorem C10_witness :
    detect_touch (mkRat 1 2) [] = (-1, -1) ∧
    (detect_touch (mkRat 1 2) [1, 1, 0, 0, 0, 0, 0, 0] = (-1, -1) ∨
      ∃ r c : ℕ, r < 4 ∧ c < 4 ∧
        detect_touch (mkRat 1 2) [1, 1, 0, 0, 0, 0, 0, 0] = ((r : ℤ), (c : ℤ))) :=
  ⟨C10_detect_touch_confined.1 [] (mkRat 1 2) (by decide),
   C10_detect_touch_confined.2 [1, 1, 0, 0, 0, 0, 0, 0] (mkRat 1 2) (by decide)⟩

/-- C2 (code bug): on stop, the timeline is NOT carried over.
`disconnect_serial` saves `serial_thread.time_offset` into
`last_time_offset` before `stop()` recomputes it, so a session started at
wall time 0, read until relative time 10 and disconnected, followed by a
reconnect at wall time 20, restarts the timeline at relative time 0
instead of continuing at a value at least 10. -/
theorem C2_offset_not_carried :
    relativeTime (connectSerial 0 0 0) 10 = 10 ∧
    (disconnectSerial (connectSerial 0 0 0) 10).1 = 0 ∧
    relativeTime
      (connectSerial (disconnectSerial (connectSerial 0 0 0) 10).1 20 20) 20 = 0 := by
  refine ⟨?_, ?_, ?_⟩ <;> with_unfolding_all decide

/-- Sample values used in the data-manager scenarios. -/
def c3vals : List ℚ := [1, 2, 3, 4, 5, 6, 7, 8]

/-- C3 (counterexample): `add_data_point` does not append on every call —
a second call 0.01 s after an accepted one is dropped by the 20 Hz rate
limiter, returns `False`, and leaves every full series untouched, so the
full history does not reflect that sample. -/
theorem C3_counterexample :
    (add_data_point (add_data_point initDataManager c3vals 0 100).1 c3vals
        (mkRat 1 100) (100 + mkRat 1 100)).2 = false ∧
    ((get_all_data (add_data_point (add_data_point initDataManager c3vals 0 100).1
        c3vals (mkRat 1 100) (100 + mkRat 1 100)).1).getD 0 []).length = 1 ∧
    ((get_all_data (add_data_point initDataManager c3vals 0 100).1).getD 0 []).length
      = 1 := by
  refine ⟨?_, ?_, ?_⟩ <;> with_unfolding_all decide

/-- C3 (amended): every call of `add_data_point` that passes the 20 Hz
rate gate (at least 0.05 s since the last accepted update) with an 8-value
sample returns `True` and appends exactly one `(voltage, time)` point to
each channel's full series, and the `get_all_data` snapshot reflects it. -/
theorem C3_append_when_accepted :
    ∀ (dm : DataManager) (values : List ℚ) (t now : ℚ),
    values.length = 8 →
    ¬ (now - dm.last_update_time < mkRat 1 20) →
    (add_data_point dm values t now).2 = true ∧
    ∀ i, i < 8 →
      (get_all_data (add_data_point dm values t now).1).getD i [] =
        (get_all_data dm).getD i [] ++ [(values.getD i 0, t)] := by
  intro dm values t now hv hrate
  unfold add_data_point
  rw [if_neg hrate]
  refine ⟨rfl, ?_⟩
  intro i hi
  unfold get_all_data
  have hmap : ∀ f : ℕ → List (ℚ × ℚ), ((List.range 8).map f).getD i [] = f i := by
    intro f
    rw [List.getD_eq_getElem?_getD, List.getElem?_map, List.getElem?_range hi]
    rfl
  rw [hmap]
  rw [if_pos (by omega)]

/-- Witness for C3 at a concrete accepted call. -/
theorem C3_witness :
    (add_data_point initDataManager c3vals 0 100).2 = true ∧
    ∀ i, i < 8 →
      (get_all_data (add_data_point initDataManager c3vals 0 100).1).getD i [] =
        (get_all_data initDataManager).getD i [] ++ [(c3vals.getD i 0, 0)] :=
  C3_append_when_accepted initDataManager c3vals 0 100 (by decide)
    (by with_unfolding_all decide)

/-- C4: whenever the buffer holds the sentinel at index `t ≥ 32` (hence at
least 36 bytes), `process_buffer` emits one frame obtained by reading the
32 bytes immediately before the sentinel as 8 consecutive little-endian
4-byte floats in channel order 0..7, and continues on the buffer with
exactly the bytes before and including the sentinel (`[0, t+4)`) removed. -/
theorem C4_frame_extraction :
    ∀ (buf : List ℕ) (t : ℕ), findTail buf = some t → 32 ≤ t →
    processBufferSH buf =
      (((List.range 8).map fun i =>
          f32OfWord (wordLE ((((buf.drop (t - 32)).take 32).drop (i * 4)).take 4)))
        :: (processBufferSH (buf.drop (t + 4))).1,
       (processBufferSH (buf.drop (t + 4))).2) := by
  intro buf t ht h32
  have htlen := occursAt_length (findTail_some_occursAt ht)
  have h36 : ¬ buf.length < 36 := by omega
  have hlen32 : ((buf.drop (t - 32)).take 32).length = 32 := by
    simp only [List.length_take, List.length_drop]
    omega
  have hdec : decodeFrameLEOpt ((buf.drop (t - 32)).take 32) =
      some (decodeFrameLE ((buf.drop (t - 32)).take 32)) :=
    decodeFrameLEOpt_eq_some hlen32
  obtain ⟨fuel, hfuel⟩ : ∃ f, buf.length = f + 1 := ⟨buf.length - 1, by omega⟩
  unfold processBufferSH
  rw [hfuel, processSHAux_cont_some (stepSH_frame h36 ht (by omega) hdec),
    processBufferSH_eq_aux
      (show (buf.drop (t + 4)).length ≤ fuel by simp only [List.length_drop]; omega)]
  rfl

/-- Concrete 36-byte buffer: one frame of byte pattern 2 and the tail. -/
def c4buf : List ℕ := List.replicate 32 2 ++ sentinel

/-- Witness for C4. -/
theorem C4_witness :
    processBufferSH c4buf =
      (((List.range 8).map fun i =>
          f32OfWord (wordLE ((((c4buf.drop (32 - 32)).take 32).drop (i * 4)).take 4)))
        :: (processBufferSH (c4buf.drop (32 + 4))).1,
       (processBufferSH (c4buf.drop (32 + 4))).2) :=
  C4_frame_extraction c4buf 32 (by decide) (by decide)

/-- C7: a sentinel found at `t < 32` (fewer than 32 preceding bytes in the
current buffer) never yields a frame: the bytes through the sentinel are
discarded, nothing is emitted for them, no error is surfaced, and the
search continues on the remaining buffer. -/
theorem C7_short_sentinel_discard :
    ∀ (buf : List ℕ) (t : ℕ), 36 ≤ buf.length → findTail buf = some t → t < 32 →
    processBufferSH buf = processBufferSH (buf.drop (t + 4)) := by
  intro buf t h36 ht h32
  have htlen := occursAt_length (findTail_some_occursAt ht)
  obtain ⟨fuel, hfuel⟩ : ∃ f, buf.length = f + 1 := ⟨buf.length - 1, by omega⟩
  unfold processBufferSH
  rw [hfuel, processSHAux_cont_none (stepSH_discard (by omega) ht h32),
    processBufferSH_eq_aux
      (show (buf.drop (t + 4)).length ≤ fuel by simp only [List.length_drop]; omega)]
  rfl

/-- Concrete 36-byte buffer starting with a bare sentinel. -/
def c7buf : List ℕ := sentinel ++ List.replicate 32 7

/-- Witness for C7. -/
theorem C7_witness :
    processBufferSH c7buf = processBufferSH (c7buf.drop (0 + 4)) :=
  C7_short_sentinel_discard c7buf 0 (by decide) (by decide) (by decide)

/-- C8: under the `t ≥ 32` guard every per-channel slice of the extracted
32-byte span has exactly 4 bytes, so `struct.unpack` succeeds on all 8
channels and the decode-failure branch (which would discard the span and
continue) is never reached; no exception propagates out of buffer
processing. -/
theorem C8_decode_never_fails :
    ∀ (buf : List ℕ) (t : ℕ), findTail buf = some t → 32 ≤ t →
    (∀ i, i < 8 → ((((buf.drop (t - 32)).take 32).drop (i * 4)).take 4).length = 4) ∧
    decodeFrameLEOpt ((buf.drop (t - 32)).take 32) =
      some (decodeFrameLE ((buf.drop (t - 32)).take 32)) := by
  intro buf t ht h32
  have htlen := occursAt_length (findTail_some_occursAt ht)
  have hlen32 : ((buf.drop (t - 32)).take 32).length = 32 := by
    simp only [List.length_take, List.length_drop]
    omega
  exact ⟨fun i hi => slice_length hlen32 hi, decodeFrameLEOpt_eq_some hlen32⟩

/-- Concrete 36-byte buffer: one frame of byte pattern 3 and the tail. -/
def c8buf : List ℕ := List.replicate 32 3 ++ sentinel

/-- Witness for C8. -/
theorem C8_witness :
    (∀ i, i < 8 → ((((c8buf.drop (32 - 32)).take 32).drop (i * 4)).take 4).length = 4) ∧
    decodeFrameLEOpt ((c8buf.drop (32 - 32)).take 32) =
      some (decodeFrameLE ((c8buf.drop (32 - 32)).take 32)) :=
  C8_decode_never_fails c8buf 32 (by decide) (by decide)

theorem processSHAux_noSent :
    ∀ (fuel : ℕ) (buf : List ℕ), buf.length ≤ fuel → findTail buf = none →
    processSHAux fuel buf =
      ([], if 360 < buf.length then buf.drop (buf.length - 36) else buf) := by
  intro fuel buf hle ht
  cases fuel with
  | zero =>
    have hb : buf = [] := List.length_eq_zero.mp (Nat.le_zero.mp hle)
    subst hb
    rfl
  | succ fuel =>
    by_cases h36 : buf.length < 36
    · rw [processSHAux_stop (stepSH_short h36), if_neg (by omega)]
    · rw [processSHAux_stop (stepSH_noTail h36 ht)]

theorem processBufferSH_noSent {buf : List ℕ} (ht : findTail buf = none) :
    processBufferSH buf =
      ([], if 360 < buf.length then buf.drop (buf.length - 36) else buf) :=
  processSHAux_noSent buf.length buf (le_refl _) ht

theorem feedAll_noSent :
    ∀ (chunks : List (List ℕ)) (b : List ℕ),
    findTail (b ++ chunks.flatten) = none → b.length ≤ 360 →
    (feedAll chunks b).1 = [] ∧ findTail (feedAll chunks b).2 = none ∧
      (feedAll chunks b).2.length ≤ 360 := by
  intro chunks
  induction chunks with
  | nil =>
    intro b h hb
    refine ⟨rfl, ?_, hb⟩
    simpa using h
  | cons c cs ih =>
    intro b h hb
    have hflat : b ++ (c :: cs).flatten = (b ++ c) ++ cs.flatten := by
      simp [List.append_assoc]
    rw [hflat] at h
    have hbc : findTail (b ++ c) = none :=
      findTail_none_of_front (List.prefix_append _ _) h
    have hfeed : feedAll (c :: cs) b =
        ((processBufferSH (b ++ c)).1 ++ (feedAll cs (processBufferSH (b ++ c)).2).1,
          (feedAll cs (processBufferSH (b ++ c)).2).2) := rfl
    rw [hfeed, processBufferSH_noSent hbc]
    by_cases h360 : 360 < (b ++ c).length
    · rw [if_pos h360]
      have hd : (b ++ c).length - 36 ≤ (b ++ c).length := by omega
      have hrw : ((b ++ c) ++ cs.flatten).drop ((b ++ c).length - 36) =
          (b ++ c).drop ((b ++ c).length - 36) ++ cs.flatten := by
        rw [List.drop_append_eq_append_drop, Nat.sub_eq_zero_of_le hd, List.drop_zero]
      have hnone : findTail ((b ++ c).drop ((b ++ c).length - 36) ++ cs.flatten) = none := by
        have hn := findTail_none_of_drop (d := (b ++ c).length - 36) h
        rw [hrw] at hn
        exact hn
      have hlen : ((b ++ c).drop ((b ++ c).length - 36)).length ≤ 360 := by
        simp only [List.length_drop]
        omega
      obtain ⟨h1, h2, h3⟩ := ih _ hnone hlen
      exact ⟨by simpa using h1, h2, h3⟩
    · rw [if_neg h360]
      obtain ⟨h1, h2, h3⟩ := ih _ h (by omega)
      exact ⟨by simpa using h1, h2, h3⟩

/-- C6: a byte stream containing no sentinel keeps the decoder's buffer
bounded.  Each processing pass on a sentinel-free buffer leaves at most
360 bytes, truncating to exactly the last 36 bytes whenever the buffer
exceeds 360 bytes; consequently feeding arbitrarily many sentinel-free
chunks emits nothing and the buffer stays at 360 bytes or fewer. -/
theorem C6_bounded_buffer :
    ∀ (chunks : List (List ℕ)) (buf : List ℕ),
    (findTail chunks.flatten = none →
      (feedAll chunks []).1 = [] ∧ (feedAll chunks []).2.length ≤ 360) ∧
    (findTail buf = none →
      (processBufferSH buf).2.length ≤ 360 ∧
      (360 < buf.length →
        (processBufferSH buf).2 = buf.drop (buf.length - 36) ∧
        (processBufferSH buf).2.length = 36)) := by
  intro chunks buf
  constructor
  · intro h
    obtain ⟨h1, _, h3⟩ := feedAll_noSent chunks [] (by simpa using h) (by decide)
    exact ⟨h1, h3⟩
  · intro ht
    rw [processBufferSH_noSent ht]
    by_cases h360 : 360 < buf.length
    · rw [if_pos h360]
      have hl : (buf.drop (buf.length - 36)).length = 36 := by
        simp only [List.length_drop]
        omega
      refine ⟨?_, fun _ => ⟨rfl, ?_⟩⟩
      · show (buf.drop (buf.length - 36)).length ≤ 360
        rw [hl]
        omega
      · show (buf.drop (buf.length - 36)).length = 36
        exact hl
    · rw [if_neg h360]
      exact ⟨(by omega : buf.length ≤ 360), fun hc => absurd hc h360⟩

/-- Two sentinel-free chunks of 200 bytes each. -/
def c6chunks : List (List ℕ) := [List.replicate 200 1, List.replicate 200 1]

/-- A sentinel-free buffer of 361 bytes. -/
def c6buf : List ℕ := List.replicate 361 5

set_option maxRecDepth 8000 in
/-- Witness for C6. -/
theorem C6_witness :
    ((feedAll c6chunks []).1 = [] ∧ (feedAll c6chunks []).2.length ≤ 360) ∧
    ((processBufferSH c6buf).2.length ≤ 360 ∧
      (360 < c6buf.length →
        (processBufferSH c6buf).2 = c6buf.drop (c6buf.length - 36) ∧
        (processBufferSH c6buf).2.length = 36)) :=
  ⟨(C6_bounded_buffer c6chunks c6buf).1 (by decide),
   (C6_bounded_buffer c6chunks c6buf).2 (by decide)⟩

/-- One frame payload whose little-endian and big-endian float decodings
differ: eight copies of the bytes `00 00 80 3F` (1.0 little-endian, a
subnormal big-endian). -/
def c9payload : List ℕ := (List.replicate 8 [0, 0, 128, 63]).flatten

set_option maxRecDepth 8000 in
/-- C9: the two `process_buffer` revisions decode frame floats with
different endianness (`'<f'` in serial_handler.py, `'>f'` in
UpperComputer.py): on the buffer holding the payload `c9payload` followed
by the sentinel, the two decoders emit different 8-value lists, so the
revisions are not value-equivalent on every input stream. -/
theorem C9_endianness_divergence :
    c9payload.length = 32 ∧
    findTail (c9payload ++ sentinel) = some 32 ∧
    (processBufferSH (c9payload ++ sentinel)).1 ≠
      (processBufferUC (c9payload ++ sentinel)).1 := by
  refine ⟨by decide, by decide, by decide⟩

/-- C1 (amended): for any byte sequence formed by concatenating valid
32-byte-payload frames with garbage runs interspersed, such that the
sentinel occurs nowhere except as each frame's own terminating tail
(`goodStream` — in particular not inside a garbage run and not straddling
a garbage/frame boundary), fed in arbitrary chunk sizes, the decoder emits
exactly the decoded valid frames, in their original order, once all bytes
are fed, independent of the chunking. -/
theorem C1_resync_amended :
    ∀ (gs ps chunks : List (List ℕ)), goodStream gs ps →
    chunks.flatten = stream gs ps →
    (feedAll chunks []).1 = ps.map decodeFrameLE := by
  intro gs ps chunks hg hch
  exact feedAll_canon chunks [] gs ps hg (by simpa using hch) (Or.inl (by decide))

/-- The frame payload of the C1 counterexample: starts with `7F`. -/
def c1ctrPayload : List ℕ := 127 :: List.replicate 31 1

/-- The C1 counterexample byte sequence: garbage `00 00 80` (which does
not contain the 4-byte sentinel) directly followed by one valid frame
whose payload starts with `7F`; a spurious sentinel straddles the
garbage/frame boundary. -/
def c1ctrStream : List ℕ := stream [[0, 0, 128], []] [c1ctrPayload]

set_option maxRecDepth 4000 in
/-- C1 (counterexample): the resync property as stated fails.  The garbage
runs contain no sentinel and the frame is valid, yet feeding the whole
sequence in one chunk emits nothing instead of the one valid frame: the
decoder resynchronises on the boundary-straddling sentinel and destroys
the frame. -/
theorem C1_counterexample :
    (∀ g ∈ [[0, 0, 128], ([] : List ℕ)], findTail g = none) ∧
    (∀ p ∈ [c1ctrPayload], p.length = 32) ∧
    (feedAll [c1ctrStream] []).1 ≠ [c1ctrPayload].map decodeFrameLE := by
  refine ⟨by decide, by decide, by decide⟩

/-- Payloads and garbage runs of the C1 witness stream. -/
def c1wPayload1 : List ℕ := List.replicate 32 1

def c1wPayload2 : List ℕ := List.replicate 32 2

def c1wStream : List ℕ := stream [[5, 6], [7], [8, 9]] [c1wPayload1, c1wPayload2]

/-- An arbitrary 3-chunk split of `c1wStream`, cutting inside frames. -/
def c1wChunks : List (List ℕ) := [c1wStream.take 10, (c1wStream.drop 10).take 37, c1wStream.drop 47]

set_option maxRecDepth 4000 in
/-- Witness for C1 (amended) on a concrete well-formed two-frame stream. -/
theorem C1_witness :
    (feedAll c1wChunks []).1 = [c1wPayload1, c1wPayload2].map decodeFrameLE :=
  C1_resync_amended [[5, 6], [7], [8, 9]] [c1wPayload1, c1wPayload2] c1wChunks
    ⟨by decide, by decide, by decide, by decide,
      (by decide : findTail [8, 9] = none)⟩ (by decide)

end TENG
